import Mathlib

/-!
Shallow embedding of `webtail.py` (vlvassilev/webtail): an HTTP server that
incrementally tails a text file by byte offset.

The file content is modelled as a `List Char` (the repository's protocol is
plain text; one char = one byte of the text stream as Python's text-mode
`len(line)` counts it).  The engine `tail` (webtail.py lines 178-190), the
handler `_get_tail` (lines 147-166) and the routing/status logic of `do_GET`
(lines 127-145) are translated below; the relevant fragment of the embedded
JavaScript client (lines 82-89) is modelled where a claim refers to it.
-/

set_option autoImplicit false

namespace Webtail

/-- `collections.deque([], maxlen).append`: appending to a full bounded deque
drops elements from the left so that only the most recent `m` remain
(webtail.py line 180 creates the deque, line 186 appends). -/
def dequeAppend {α : Type} (maxlen : Option Nat) (xs : List α) (x : α) : List α :=
  match maxlen with
  | none => xs ++ [x]
  | some m => (xs ++ [x]).drop ((xs ++ [x]).length - m)

/-- Splitting a character stream the way Python's line iterator does:
returns the complete (newline-terminated, terminator kept) lines and the
trailing unterminated remainder.  `cur` is the partial current line. -/
def completeSplitAux (cur : List Char) : List Char → List (List Char) × List Char
  | [] => ([], cur)
  | c :: rest =>
    if c = '\n' then
      let r := completeSplitAux [] rest
      ((cur ++ ['\n']) :: r.1, r.2)
    else completeSplitAux (cur ++ [c]) rest

/-- Python's `for line in stream`: every yielded line keeps its trailing
newline; a nonempty unterminated tail of the file is yielded last without
one. -/
def pyLines (s : List Char) : List (List Char) :=
  let r := completeSplitAux [] s
  r.1 ++ (if r.2 = [] then [] else [r.2])

/-- The loop body of `tail` (webtail.py lines 183-187): stop at the first
line that does not end with a newline; otherwise push the line into the
bounded deque and advance the running offset by the line's length. -/
def tailLoop (lim : Option Nat) (acc : List (List Char)) (off : Nat) :
    List (List Char) → Nat × List (List Char)
  | [] => (off, acc)
  | l :: rest =>
    if l.getLast? = some '\n' then
      tailLoop lim (dequeAppend lim acc l) (off + l.length) rest
    else (off, acc)

/-- `WebTailHTTPRequestHandler.tail` (webtail.py lines 178-190): seek to
`off`, iterate lines, return the final offset and the deque contents. -/
def tail (content : List Char) (off : Nat) (lim : Option Nat) :
    Nat × List (List Char) :=
  tailLoop lim [] off (pyLines (content.drop off))

/-- The engine as the handler invokes it: `_get_tail` coerces a zero limit to
`None` (`int(request.get('limit', 0)) or None`, webtail.py line 158) before
calling `tail`, so a limit of 0 means unbounded. -/
def readTail (content : List Char) (off : Nat) (limit : Nat) :
    Nat × List (List Char) :=
  tail content off (if limit = 0 then none else some limit)

/-- The exceptions `_get_tail` can raise, all caught by `do_GET`'s generic
`except Exception` (webtail.py lines 143-145). -/
inductive HandlerError where
  | notFound
  | valueError
  | ioError
deriving DecidableEq

/-- Query parameters of a `/tail` request; `offset` and `limit` arrive as raw
character strings (absent = `none`). -/
structure TailReq where
  filename : Option String
  offset : Option (List Char)
  limit : Option (List Char)

/-- webtail.py lines 149-152: a server-configured fixed filename takes
precedence; otherwise the request's `filename` parameter, defaulting to "". -/
def resolveFilename (fixed : Option String) (req : TailReq) : String :=
  fixed.getD (req.filename.getD "")

/-- Digit run of Python's `int(str)`: all characters must be decimal digits. -/
def parseDigits : List Char → Nat → Option Nat
  | [], acc => some acc
  | c :: rest, acc =>
    if c.isDigit then parseDigits rest (acc * 10 + (c.toNat - '0'.toNat)) else none

/-- Python's `int(str)` on a query-parameter string: an optional sign
followed by at least one digit; anything else raises `ValueError`. -/
def parseInt : List Char → Option Int
  | [] => none
  | '-' :: rest =>
    if rest = [] then none else (parseDigits rest 0).map (fun n => -(n : Int))
  | '+' :: rest =>
    if rest = [] then none else (parseDigits rest 0).map (fun n => (n : Int))
  | cs => (parseDigits cs 0).map (fun n => (n : Int))

/-- `int(request.get(key, default))`: an absent parameter yields the integer
default; a present one must parse as an integer or `int` raises `ValueError`
(webtail.py lines 157-158). -/
def parseParam (v : Option (List Char)) (d : Int) : Option Int :=
  match v with
  | none => some d
  | some s => parseInt s

/-- The part of `_get_tail` after parameter parsing (webtail.py lines
154-166, 180-182), in source order: the `size <= offset` short-circuit comes
first; then `collections.deque([], limit)` raises on a negative maxlen;
then `stream.seek(offset)` raises on a negative offset; otherwise the engine
runs with the zero-coerced limit. -/
def tailCore (content : List Char) (off lim : Int) :
    Except HandlerError (Nat × List (List Char)) :=
  if (content.length : Int) ≤ off then Except.ok (content.length, [])
  else if lim < 0 then Except.error HandlerError.valueError
  else if off < 0 then Except.error HandlerError.ioError
  else Except.ok (tail content off.toNat (if lim = 0 then none else some lim.toNat))

/-- `_get_tail` (webtail.py lines 147-166) against a filesystem modelled as a
partial map from path to content: `os.stat` on a missing path raises
`FileNotFoundError`; non-numeric `offset`/`limit` raise `ValueError`.  The
result is the final `X-Seek-Offset` value and the returned lines. -/
def getTail (fs : String → Option (List Char)) (fixed : Option String)
    (req : TailReq) : Except HandlerError (Nat × List (List Char)) :=
  match fs (resolveFilename fixed req) with
  | none => Except.error HandlerError.notFound
  | some content =>
    match parseParam req.offset 0 with
    | none => Except.error HandlerError.valueError
    | some off =>
      match parseParam req.limit 0 with
      | none => Except.error HandlerError.valueError
      | some lim => tailCore content off lim

/-- HTTP status of a `/tail` request: 200 on success, 500 for any exception
escaping the handler (webtail.py lines 139-145). -/
def tailStatus (fs : String → Option (List Char)) (fixed : Option String)
    (req : TailReq) : Nat :=
  match getTail fs fixed req with
  | Except.ok _ => 200
  | Except.error _ => 500

/-- `do_GET` routing (webtail.py lines 127-145): `/` serves the static page
with 200, `/tail` runs the handler (200 or 500), anything else is 400. -/
def doGETStatus (fs : String → Option (List Char)) (fixed : Option String)
    (path : String) (req : TailReq) : Nat :=
  if path = "/" then 200
  else if path = "/tail" then tailStatus fs fixed req
  else 400

/-- The `tail()` function of the embedded JavaScript client (webtail.py lines
82-89): the `limit` query parameter is appended to the request URI only when
the client's `offset` variable is 0, defaulting to 1000 when the page URL
carries no `limit` parameter. -/
def jsTailLimitParam (offset : Nat) (limitParam : Option Int) : Option Int :=
  if offset = 0 then some (limitParam.getD 1000) else none

instance exceptDecEq {ε α : Type} [DecidableEq ε] [DecidableEq α] :
    DecidableEq (Except ε α)
  | Except.ok x, Except.ok y =>
    if h : x = y then Decidable.isTrue (by rw [h])
    else Decidable.isFalse (fun he => h (Except.ok.inj he))
  | Except.ok _, Except.error _ => Decidable.isFalse (fun he => Except.noConfusion he)
  | Except.error _, Except.ok _ => Decidable.isFalse (fun he => Except.noConfusion he)
  | Except.error e, Except.error e' =>
    if h : e = e' then Decidable.isTrue (by rw [h])
    else Decidable.isFalse (fun he => h (Except.error.inj he))

/-- Total byte length of a list of lines. -/
def sumLen (ls : List (List Char)) : Nat :=
  (ls.map List.length).sum

/-- The complete (newline-terminated) lines of `content` from byte `off`. -/
def completeLinesFrom (content : List Char) (off : Nat) : List (List Char) :=
  (completeSplitAux [] (content.drop off)).1

/-- Ten complete two-byte lines: "0\n1\n...9\n" (the spec's limit example). -/
def digits10 : List Char :=
  ['0','\n','1','\n','2','\n','3','\n','4','\n',
   '5','\n','6','\n','7','\n','8','\n','9','\n']

/-- The spec's incomplete-line example file "a\nb\nc". -/
def exIncomplete : List Char := ['a','\n','b','\n','c']

/-- The spec's file after the writer finishes the third line: "a\nb\nc\n". -/
def exComplete : List Char := ['a','\n','b','\n','c','\n']

/-- A one-file filesystem: path "log" holds `content`, nothing else exists. -/
def fsOne (content : List Char) : String → Option (List Char) :=
  fun n => if n = "log" then some content else none

theorem completeSplitAux_nil (cur : List Char) : completeSplitAux cur [] = ([], cur) := rfl

theorem completeSplitAux_cons_nl (cur rest) :
    completeSplitAux cur ('\n' :: rest) =
      ((cur ++ ['\n']) :: (completeSplitAux [] rest).1, (completeSplitAux [] rest).2) := by
  simp [completeSplitAux]

theorem completeSplitAux_cons_other (cur : List Char) (c : Char) (rest) (hc : ¬ c = '\n') :
    completeSplitAux cur (c :: rest) = completeSplitAux (cur ++ [c]) rest := by
  simp [completeSplitAux, hc]

theorem completeSplitAux_ends_nl (s : List Char) :
    ∀ cur l, l ∈ (completeSplitAux cur s).1 → l.getLast? = some '\n' := by
  induction s with
  | nil => intro cur l h; simp [completeSplitAux_nil] at h
  | cons c rest ih =>
    intro cur l h
    by_cases hc : c = '\n'
    · subst hc
      rw [completeSplitAux_cons_nl] at h
      rcases List.mem_cons.mp h with h | h
      · subst h; exact List.getLast?_concat _
      · exact ih [] l h
    · rw [completeSplitAux_cons_other cur c rest hc] at h
      exact ih (cur ++ [c]) l h

theorem completeSplitAux_no_nl (s : List Char) :
    ∀ cur, ('\n' : Char) ∉ cur → ('\n' : Char) ∉ (completeSplitAux cur s).2 := by
  induction s with
  | nil => intro cur h; simpa [completeSplitAux_nil] using h
  | cons c rest ih =>
    intro cur h
    by_cases hc : c = '\n'
    · subst hc
      rw [completeSplitAux_cons_nl]
      exact ih [] (by simp)
    · rw [completeSplitAux_cons_other cur c rest hc]
      exact ih (cur ++ [c])
        (by simp [List.mem_append, h]; exact fun he => hc he.symm)

theorem completeSplitAux_chars (s : List Char) :
    ∀ cur, ((completeSplitAux cur s).1.flatten ++ (completeSplitAux cur s).2 : List Char)
      = cur ++ s := by
  induction s with
  | nil => intro cur; simp [completeSplitAux_nil]
  | cons c rest ih =>
    intro cur
    by_cases hc : c = '\n'
    · subst hc
      rw [completeSplitAux_cons_nl]
      simp only [List.flatten_cons, List.append_assoc]
      rw [ih []]
      simp
    · rw [completeSplitAux_cons_other cur c rest hc, ih (cur ++ [c])]
      simp

theorem completeSplitAux_of_no_nl (s : List Char) :
    ∀ cur, ('\n' : Char) ∉ s → completeSplitAux cur s = ([], cur ++ s) := by
  induction s with
  | nil => intro cur _; simp [completeSplitAux_nil]
  | cons c rest ih =>
    intro cur h
    have hc : ¬ c = '\n' := fun he => h (by simp [he])
    rw [completeSplitAux_cons_other cur c rest hc, ih (cur ++ [c]) (fun hm => h (by simp [hm]))]
    simp

theorem completeSplitAux_append (s : List Char) :
    ∀ cur t, completeSplitAux cur (s ++ t) =
      ((completeSplitAux cur s).1 ++ (completeSplitAux ((completeSplitAux cur s).2) t).1,
       (completeSplitAux ((completeSplitAux cur s).2) t).2) := by
  induction s with
  | nil => intro cur t; simp [completeSplitAux_nil]
  | cons c rest ih =>
    intro cur t
    by_cases hc : c = '\n'
    · subst hc
      rw [List.cons_append, completeSplitAux_cons_nl, completeSplitAux_cons_nl, ih [] t]
      simp
    · rw [List.cons_append, completeSplitAux_cons_other cur c _ hc,
        completeSplitAux_cons_other cur c rest hc, ih (cur ++ [c]) t]

theorem tailLoop_nil (lim acc off) : tailLoop lim acc off [] = (off, acc) := rfl

theorem tailLoop_cons_nl (lim acc off) (l : List Char) (rest)
    (hl : l.getLast? = some '\n') :
    tailLoop lim acc off (l :: rest)
      = tailLoop lim (dequeAppend lim acc l) (off + l.length) rest := by
  simp [tailLoop, hl]

theorem tailLoop_cons_stop (lim acc off) (l : List Char) (rest)
    (hl : ¬ l.getLast? = some '\n') :
    tailLoop lim acc off (l :: rest) = (off, acc) := by
  simp [tailLoop, hl]

theorem tailLoop_mono (ls : List (List Char)) :
    ∀ lim acc off, off ≤ (tailLoop lim acc off ls).1 := by
  induction ls with
  | nil => intro lim acc off; simp [tailLoop_nil]
  | cons l rest ih =>
    intro lim acc off
    by_cases hl : l.getLast? = some '\n'
    · rw [tailLoop_cons_nl lim acc off l rest hl]
      exact Nat.le_trans (Nat.le_add_right off l.length) (ih lim _ _)
    · rw [tailLoop_cons_stop lim acc off l rest hl]

theorem sumLen_nil : sumLen [] = 0 := rfl

theorem sumLen_cons (l : List Char) (ls) : sumLen (l :: ls) = l.length + sumLen ls := by
  simp [sumLen]

theorem tailLoop_complete (ls : List (List Char)) :
    ∀ (ext : List (List Char)) lim acc off,
      (∀ l ∈ ls, l.getLast? = some '\n') →
      (∀ x ∈ ext, ¬ x.getLast? = some '\n') →
      ext.length ≤ 1 →
      tailLoop lim acc off (ls ++ ext)
        = (off + sumLen ls, ls.foldl (dequeAppend lim) acc) := by
  induction ls with
  | nil =>
    intro ext lim acc off _ h2 h3
    match ext with
    | [] => simp [tailLoop_nil, sumLen_nil]
    | [x] =>
      rw [List.nil_append, tailLoop_cons_stop lim acc off x [] (h2 x (by simp))]
      simp [sumLen_nil]
  | cons l rest ih =>
    intro ext lim acc off h1 h2 h3
    rw [List.cons_append, tailLoop_cons_nl lim acc off l _ (h1 l (by simp)),
      ih ext lim _ _ (fun x hx => h1 x (by simp [hx])) h2 h3]
    rw [sumLen_cons, List.foldl_cons, Nat.add_assoc]

theorem foldl_dequeAppend_none (ls : List (List Char)) :
    ∀ acc, ls.foldl (dequeAppend none) acc = acc ++ ls := by
  induction ls with
  | nil => intro acc; simp
  | cons l rest ih => intro acc; simp [List.foldl_cons, dequeAppend, ih]

theorem foldl_dequeAppend_some (ls : List (List Char)) :
    ∀ (m : Nat) (acc : List (List Char)), acc.length ≤ m →
      ls.foldl (dequeAppend (some m)) acc
        = (acc ++ ls).drop ((acc ++ ls).length - m) := by
  induction ls with
  | nil =>
    intro m acc h
    simp [Nat.sub_eq_zero_of_le h]
  | cons l rest ih =>
    intro m acc h
    have hlen : (dequeAppend (some m) acc l).length ≤ m := by
      simp [dequeAppend, List.length_drop]
      omega
    rw [List.foldl_cons, ih m _ hlen]
    have hd : dequeAppend (some m) acc l
        = (acc ++ [l]).drop ((acc ++ [l]).length - m) := rfl
    rw [hd]
    have hk : (acc ++ [l]).length - m ≤ (acc ++ [l]).length := Nat.sub_le _ _
    have hA : ((acc ++ [l]) ++ rest).drop ((acc ++ [l]).length - m)
        = ((acc ++ [l]).drop ((acc ++ [l]).length - m)) ++ rest := by
      rw [List.drop_append_eq_append_drop, Nat.sub_eq_zero_of_le hk, List.drop_zero]
    rw [← hA, List.drop_drop]
    have hrw : (acc ++ [l]) ++ rest = acc ++ l :: rest := by simp
    rw [hrw]
    congr 1
    simp [List.length_drop, List.length_append, List.length_cons]
    omega

theorem foldl_dequeAppend_sublist (ls : List (List Char)) (lim : Option Nat) :
    List.Sublist (ls.foldl (dequeAppend lim) []) ls := by
  cases lim with
  | none =>
    rw [foldl_dequeAppend_none]
    simp
  | some m =>
    rw [foldl_dequeAppend_some ls m [] (by simp)]
    simp [List.drop_sublist]

theorem tail_eq_foldl (content : List Char) (off : Nat) (lim : Option Nat) :
    tail content off lim =
      (off + sumLen (completeLinesFrom content off),
       (completeLinesFrom content off).foldl (dequeAppend lim) []) := by
  have hends := completeSplitAux_ends_nl (content.drop off) []
  have hno := completeSplitAux_no_nl (content.drop off) [] (by simp)
  simp only [tail, pyLines, completeLinesFrom]
  apply tailLoop_complete
  · exact hends
  · intro x hx
    by_cases hrem : (completeSplitAux [] (content.drop off)).2 = []
    · simp [hrem] at hx
    · simp [hrem] at hx
      subst hx
      intro hlast
      exact hno (List.mem_of_getLast?_eq_some hlast)
  · by_cases hrem : (completeSplitAux [] (content.drop off)).2 = [] <;> simp [hrem]

theorem tail_none_eq (content : List Char) (off : Nat) :
    tail content off none
      = (off + sumLen (completeLinesFrom content off), completeLinesFrom content off) := by
  rw [tail_eq_foldl, foldl_dequeAppend_none]
  simp

theorem tail_some_eq (content : List Char) (off : Nat) (m : Nat) :
    tail content off (some m)
      = (off + sumLen (completeLinesFrom content off),
         (completeLinesFrom content off).drop ((completeLinesFrom content off).length - m)) := by
  rw [tail_eq_foldl, foldl_dequeAppend_some _ m [] (by simp)]
  simp

theorem sumLen_append (a b : List (List Char)) : sumLen (a ++ b) = sumLen a + sumLen b := by
  simp [sumLen]

theorem sumLen_eq_length_flatten (ls : List (List Char)) : sumLen ls = ls.flatten.length := by
  simp [sumLen, List.length_flatten]

/-- Appending to the file only extends the complete-line decomposition: the
complete lines of `f ++ g` from `off` are those of `f` from `off` followed by
those of `f ++ g` from the first call's resume offset. -/
theorem completeLinesFrom_chain (f g : List Char) (off : Nat) (h : off ≤ f.length) :
    completeLinesFrom (f ++ g) off
      = completeLinesFrom f off
        ++ completeLinesFrom (f ++ g) (off + sumLen (completeLinesFrom f off)) := by
  have hdropA : (f ++ g).drop off = f.drop off ++ g := by
    rw [List.drop_append_eq_append_drop, Nat.sub_eq_zero_of_le h, List.drop_zero]
  simp only [completeLinesFrom, hdropA]
  rcases haux : completeSplitAux [] (f.drop off) with ⟨cs, rem⟩
  have hchars : cs.flatten ++ rem = f.drop off := by
    have hc := completeSplitAux_chars (f.drop off) []
    rw [haux] at hc
    simpa using hc
  have hnn : ('\n' : Char) ∉ rem := by
    have hn := completeSplitAux_no_nl (f.drop off) [] (by simp)
    rw [haux] at hn
    exact hn
  have happ := completeSplitAux_append (f.drop off) [] g
  rw [haux] at happ
  have hdropB : (f ++ g).drop (off + sumLen cs) = rem ++ g := by
    rw [← List.drop_drop, hdropA, sumLen_eq_length_flatten, ← hchars,
      List.append_assoc, List.drop_left]
  have happ2 := completeSplitAux_append rem [] g
  rw [completeSplitAux_of_no_nl rem [] hnn] at happ2
  simp only [List.nil_append] at happ2
  rw [happ, hdropB, happ2]

theorem mem_foldl_dequeAppend (ls : List (List Char)) :
    ∀ lim acc (x : List Char), x ∈ ls.foldl (dequeAppend lim) acc → x ∈ acc ∨ x ∈ ls := by
  induction ls with
  | nil => intro lim acc x h; exact Or.inl h
  | cons l rest ih =>
    intro lim acc x h
    rw [List.foldl_cons] at h
    rcases ih lim _ x h with h' | h'
    · have hx : x ∈ acc ++ [l] := by
        cases lim with
        | none => exact h'
        | some m => exact (List.drop_sublist _ _).subset h'
      rcases List.mem_append.mp hx with h2 | h2
      · exact Or.inl h2
      · simp at h2
        exact Or.inr (by simp [h2])
    · exact Or.inr (by simp [h'])

theorem completeSplitAux_replicate_nl (n : Nat) :
    completeSplitAux [] (List.replicate n '\n') = (List.replicate n ['\n'], []) := by
  induction n with
  | zero => simp [completeSplitAux_nil]
  | succ k ih =>
    rw [List.replicate_succ, completeSplitAux_cons_nl, ih]
    simp [List.replicate_succ]

theorem sumLen_replicate (n : Nat) (l : List Char) :
    sumLen (List.replicate n l) = n * l.length := by
  simp [sumLen, List.map_replicate, List.sum_replicate, smul_eq_mul]

theorem tail_replicate_nl (n : Nat) :
    tail (List.replicate n '\n') 0 none = (n, List.replicate n ['\n']) := by
  rw [tail_none_eq]
  have h : completeLinesFrom (List.replicate n '\n') 0 = List.replicate n ['\n'] := by
    simp [completeLinesFrom, completeSplitAux_replicate_nl]
  rw [h, sumLen_replicate]
  simp

-- Sanity checks against the examples in the specification.
example : readTail ['a','\n','b','\n','c'] 0 0 = (4, [['a','\n'],['b','\n']]) := by decide
example : readTail ['a','\n','b','\n','c','\n'] 4 0 = (6, [['c','\n']]) := by decide
example : tail ['a','\n','b','\n','c','\n'] 0 (some 1) = (6, [['c','\n']]) := by decide
example : tailCore ['a','b','\n','c','d'] 100 0 = Except.ok (5, []) := by decide

/-- C1, counterexample: on ten complete two-byte lines, `readTail(path, 0, 3)`
does NOT return the first 3 lines with nextOffset 6 — the bounded deque keeps
reading, so the claimed result is false at this input. -/
theorem limit_stops_reading_refuted :
    ¬ (readTail digits10 0 3 = (6, [['0','\n'],['1','\n'],['2','\n']])) := by
  decide

/-- C1, amended: with limit 3 on ten complete two-byte lines the engine reads
every complete line (nextOffset = 20) and returns only the LAST 3 lines, the
older ones having been evicted from the bounded deque. -/
theorem limit_keeps_last_lines_example :
    readTail digits10 0 3 = (20, [['7','\n'],['8','\n'],['9','\n']]) := by
  decide

/-- C2, counterexample: with a limit of 1 on "a\nb\nc\n" the returned
nextOffset (6) is NOT the input offset plus the byte length of the returned
lines (0 + 2), because evicted lines were also consumed. -/
theorem nextOffset_returned_bytes_refuted :
    ¬ ((readTail exComplete 0 1).1 = 0 + sumLen (readTail exComplete 0 1).2) := by
  decide

/-- C2, amended: for every call, nextOffset equals the input offset plus the
total byte length of all complete lines consumed; when no limit is in effect
the consumed lines are exactly the returned lines, so there nextOffset equals
offset plus the byte length of the returned lines. -/
theorem nextOffset_eq_offset_add_consumed :
    (∀ content off lim,
      (tail content off lim).1 = off + sumLen (completeLinesFrom content off))
    ∧ (∀ content off,
      (tail content off none).1 = off + sumLen (tail content off none).2) := by
  constructor
  · intro content off lim
    rw [tail_eq_foldl]
  · intro content off
    rw [tail_none_eq]

/-- C3: a trailing byte run not terminated by a newline is never returned
(every returned line ends with the newline character) and nextOffset never
advances past it; concretely `readTail("a\nb\nc", 0, 0) = (4, ["a\n","b\n"])`
and, after the file becomes "a\nb\nc\n", `readTail(·, 4, 0) = (6, ["c\n"])`. -/
theorem incomplete_line_excluded :
    (∀ content off lim l, l ∈ (tail content off lim).2 → l.getLast? = some '\n')
    ∧ (∀ content off lim,
        (tail content off lim).1 ≤ off + sumLen (completeLinesFrom content off))
    ∧ readTail exIncomplete 0 0 = (4, [['a','\n'],['b','\n']])
    ∧ readTail exComplete 4 0 = (6, [['c','\n']]) := by
  refine ⟨?_, ?_, by decide, by decide⟩
  · intro content off lim l hl
    rw [tail_eq_foldl] at hl
    rcases mem_foldl_dequeAppend _ lim [] l hl with h | h
    · simp at h
    · exact completeSplitAux_ends_nl (content.drop off) [] l h
  · intro content off lim
    rw [tail_eq_foldl]

/-- C3, witness: the general part applied to the line "a\n" returned by the
engine on the file "a\nb\nc". -/
theorem incomplete_line_excluded_witness :
    (['a','\n'] : List Char).getLast? = some '\n' :=
  incomplete_line_excluded.1 exIncomplete 0 none ['a','\n'] (by decide)

/-- C5: whenever the stat-reported size is at most the requested offset, the
handler short-circuits to an empty line list with nextOffset = size, raising
no error (this includes an empty file at offset 0, an offset beyond
end-of-file, and even a negative limit, since the deque is never built). -/
theorem size_le_offset_short_circuit (content : List Char) (off lim : Int)
    (h : (content.length : Int) ≤ off) :
    tailCore content off lim = Except.ok (content.length, []) := by
  simp [tailCore, if_pos h]

/-- C5, witness: a 5-byte file polled at offset 100 and an empty file polled
at offset 0. -/
theorem size_le_offset_short_circuit_witness :
    tailCore ['a','b','\n','c','d'] 100 0 = Except.ok (5, [])
    ∧ tailCore [] 0 0 = Except.ok (0, []) :=
  ⟨size_le_offset_short_circuit ['a','b','\n','c','d'] 100 0 (by decide),
   size_le_offset_short_circuit [] 0 0 (by decide)⟩

/-- C10: with a positive limit smaller than the number of complete lines at
or after the offset, the engine returns the LAST `m` complete lines (exactly
`m` of them) while nextOffset still advances past every complete line read,
including the evicted ones. -/
theorem tail_sliding_window (content : List Char) (off m : Nat)
    (hm : 0 < m) (hlt : m < (completeLinesFrom content off).length) :
    tail content off (some m)
      = (off + sumLen (completeLinesFrom content off),
         (completeLinesFrom content off).drop ((completeLinesFrom content off).length - m))
    ∧ (tail content off (some m)).2.length = m := by
  refine ⟨tail_some_eq content off m, ?_⟩
  rw [tail_some_eq]
  simp [List.length_drop]
  omega

/-- C10, witness: limit 3 on ten complete two-byte lines. -/
theorem tail_sliding_window_witness :
    (tail digits10 0 (some 3)
      = (0 + sumLen (completeLinesFrom digits10 0),
         (completeLinesFrom digits10 0).drop ((completeLinesFrom digits10 0).length - 3))
    ∧ (tail digits10 0 (some 3)).2.length = 3) :=
  tail_sliding_window digits10 0 3 (by decide) (by decide)

/-- C4, counterexample: on a 5-byte file "ab\ncd", a request with offset 100
succeeds with nextOffset 5, which is strictly smaller than the supplied
offset — so "nextOffset ≥ offset always" is false at the handler level. -/
theorem nextOffset_ge_offset_refuted :
    getTail (fsOne ['a','b','\n','c','d']) none ⟨some "log", some ['1','0','0'], none⟩
      = Except.ok (5, [])
    ∧ (5 : Nat) < 100 := by
  constructor
  · rfl
  · decide

/-- C4, amended: the engine itself never moves the cursor backwards
(nextOffset ≥ offset for every `tail` call); at the handler level
nextOffset ≥ offset holds whenever the requested offset is at most the file
size, while an offset beyond the file size short-circuits to
nextOffset = size < offset. -/
theorem nextOffset_ge_offset_amended :
    (∀ content off lim, off ≤ (tail content off lim).1)
    ∧ (∀ content : List Char, ∀ off lim : Int, ∀ r,
        tailCore content off lim = Except.ok r →
        off ≤ (content.length : Int) → off ≤ (r.1 : Int))
    ∧ (∀ content : List Char, ∀ off lim : Int,
        (content.length : Int) < off →
        tailCore content off lim = Except.ok (content.length, [])) := by
  refine ⟨?_, ?_, ?_⟩
  · intro content off lim
    rw [tail_eq_foldl]
    exact Nat.le_add_right off _
  · intro content off lim r hok hle
    by_cases h1 : (content.length : Int) ≤ off
    · rw [tailCore, if_pos h1] at hok
      cases hok
      exact hle
    · by_cases h2 : lim < 0
      · rw [tailCore, if_neg h1, if_pos h2] at hok
        exact Except.noConfusion hok
      · by_cases h3 : off < 0
        · rw [tailCore, if_neg h1, if_neg h2, if_pos h3] at hok
          exact Except.noConfusion hok
        · rw [tailCore, if_neg h1, if_neg h2, if_neg h3] at hok
          cases hok
          have hm : off.toNat
              ≤ (tail content off.toNat (if lim = 0 then none else some lim.toNat)).1 := by
            rw [tail_eq_foldl]
            exact Nat.le_add_right _ _
          omega
  · intro content off lim h
    rw [tailCore, if_pos (le_of_lt h)]

/-- C4, witness: the engine part at "a\nb\nc\n" from offset 2, the handler
part with offset 2 ≤ size 6, and the short-circuit part at offset 100. -/
theorem nextOffset_ge_offset_amended_witness :
    (2 : Nat) ≤ (tail exComplete 2 none).1
    ∧ ((2 : Int) ≤ ((tail exComplete 2 none : Nat × List (List Char)).1 : Int))
    ∧ tailCore exComplete 100 0 = Except.ok (exComplete.length, []) :=
  ⟨nextOffset_ge_offset_amended.1 exComplete 2 none,
   nextOffset_ge_offset_amended.2.1 exComplete 2 0 (tail exComplete 2 none)
     (by decide) (by decide),
   nextOffset_ge_offset_amended.2.2 exComplete 100 0 (by decide)⟩

/-- C6, counterexample: with a limit of 1 on "a\nb\nc\n", the call at offset
0 returns only "c\n" and advances to 6; the line "a\n" was fully written
before the call yet is not returned, and the chained follow-up call at
offset 6 returns nothing, so the skipped line is never delivered — the
no-gaps half of the claim fails for limited calls. -/
theorem no_gaps_refuted :
    readTail exComplete 0 1 = (6, [['c','\n']])
    ∧ ¬ ((['a','\n'] : List Char) ∈ (readTail exComplete 0 1).2)
    ∧ readTail exComplete 6 0 = (6, []) := by
  refine ⟨by decide, by decide, by decide⟩

/-- C6, amended: under chained polling (poll `f` at `off`, writer appends
`g`, poll the grown file at the returned nextOffset), no duplicates holds for
EVERY pair of limits: the concatenated returned lines form a sublist of the
grown file's complete lines from `off`, so no complete-line occurrence is
ever returned twice; and when both calls are unlimited the chain is exact —
the concatenation is precisely what one unlimited poll of the grown file
yields, so additionally no complete line is skipped.  (With a positive
limit, lines beyond the limit are consumed but evicted, creating gaps, as
the counterexample shows.) -/
theorem chained_polls_no_dup_no_gap (f g : List Char) (off : Nat)
    (h : off ≤ f.length) (lim1 lim2 : Option Nat) :
    (tail (f ++ g) off none
      = ((tail (f ++ g) (tail f off none).1 none).1,
         (tail f off none).2 ++ (tail (f ++ g) (tail f off none).1 none).2))
    ∧ List.Sublist
        ((tail f off lim1).2 ++ (tail (f ++ g) (tail f off lim1).1 lim2).2)
        (completeLinesFrom (f ++ g) off) := by
  constructor
  · rw [tail_none_eq f off]
    simp only
    rw [tail_none_eq (f ++ g) off,
      tail_none_eq (f ++ g) (off + sumLen (completeLinesFrom f off)),
      completeLinesFrom_chain f g off h]
    rw [sumLen_append]
    simp [Nat.add_assoc]
  · have h1 : (tail f off lim1).1 = off + sumLen (completeLinesFrom f off) := by
      rw [tail_eq_foldl]
    rw [h1, completeLinesFrom_chain f g off h]
    apply List.Sublist.append
    · rw [tail_eq_foldl]
      exact foldl_dequeAppend_sublist _ _
    · rw [tail_eq_foldl]
      exact foldl_dequeAppend_sublist _ _

/-- C6, witness: the chain law at f = "a\nb", g = "\nc\n", offset 0, with
the first call limited to 1 line for the no-duplicates half. -/
theorem chained_polls_no_dup_no_gap_witness :
    (tail ((['a','\n','b'] : List Char) ++ ['\n','c','\n']) 0 none
      = ((tail (['a','\n','b'] ++ ['\n','c','\n']) (tail ['a','\n','b'] 0 none).1 none).1,
         (tail ['a','\n','b'] 0 none).2
           ++ (tail (['a','\n','b'] ++ ['\n','c','\n']) (tail ['a','\n','b'] 0 none).1 none).2))
    ∧ List.Sublist
        ((tail ['a','\n','b'] 0 (some 1)).2
          ++ (tail (['a','\n','b'] ++ ['\n','c','\n']) (tail ['a','\n','b'] 0 (some 1)).1 none).2)
        (completeLinesFrom (['a','\n','b'] ++ ['\n','c','\n']) 0) :=
  chained_polls_no_dup_no_gap ['a','\n','b'] ['\n','c','\n'] 0 (by decide) (some 1) none

/-- C7, counterexample: a /tail request with the non-numeric offset "abc" on
an existing file is answered with status 500 — the same server error status
as engine failures, not a 4xx client error. -/
theorem malformed_params_client_error_refuted :
    tailStatus (fsOne exComplete) none ⟨some "log", some ['a','b','c'], none⟩ = 500
    ∧ ¬ (tailStatus (fsOne exComplete) none ⟨some "log", some ['a','b','c'], none⟩ < 500) := by
  constructor
  · rfl
  · decide

/-- C7, amended: a malformed (non-integer) offset or limit makes the handler
raise, and `do_GET`'s blanket exception handler reports it with the server
error status 500, indistinguishable from engine failures; only requests for
unrecognized paths receive the 400 client error status. -/
theorem malformed_params_server_error :
    (∀ fs fixed req, parseParam req.offset 0 = none ∨ parseParam req.limit 0 = none →
      tailStatus fs fixed req = 500)
    ∧ (∀ fs fixed req path, ¬ path = "/" → ¬ path = "/tail" →
      doGETStatus fs fixed path req = 400) := by
  constructor
  · intro fs fixed req h
    rw [tailStatus, getTail]
    rcases hfs : fs (resolveFilename fixed req) with _ | content
    · rfl
    · rcases h with h | h
      · rw [h]
      · rcases hoff : parseParam req.offset 0 with _ | off
        · rfl
        · rw [h]
  · intro fs fixed req path h1 h2
    simp [doGETStatus, h1, h2]

/-- C7, witness: a request with the non-numeric limit "xyz" gets 500, and an
unrecognized path gets 400. -/
theorem malformed_params_server_error_witness :
    tailStatus (fsOne exComplete) none ⟨some "log", none, some ['x','y','z']⟩ = 500
    ∧ doGETStatus (fsOne exComplete) none "/other" ⟨some "log", none, none⟩ = 400 :=
  ⟨malformed_params_server_error.1 (fsOne exComplete) none
      ⟨some "log", none, some ['x','y','z']⟩ (Or.inr (by decide)),
   malformed_params_server_error.2 (fsOne exComplete) none
      ⟨some "log", none, none⟩ "/other" (by decide) (by decide)⟩

/-- C8: when the resolved path does not exist in the filesystem, the handler
fails with the not-found error (no result is produced) and the request is
reported with the server error status 500, not a success. -/
theorem missing_file_not_found (fs : String → Option (List Char))
    (fixed : Option String) (req : TailReq)
    (h : fs (resolveFilename fixed req) = none) :
    getTail fs fixed req = Except.error HandlerError.notFound
    ∧ tailStatus fs fixed req = 500 := by
  constructor
  · rw [getTail, h]
  · rw [tailStatus, getTail, h]

/-- C8, witness: the empty filesystem at path "/no/such/file". -/
theorem missing_file_not_found_witness :
    getTail (fun _ => none) none ⟨some "/no/such/file", some ['0'], some ['0']⟩
      = Except.error HandlerError.notFound
    ∧ tailStatus (fun _ => none) none ⟨some "/no/such/file", some ['0'], some ['0']⟩ = 500 :=
  missing_file_not_found (fun _ => none) none ⟨some "/no/such/file", some ['0'], some ['0']⟩ rfl

/-- C9, counterexample: a /tail request with offset 0 and NO limit parameter
on a file of 1001 one-byte lines is served unbounded — all 1001 lines come
back, so the server handler applies no default limit of 1000 at offset 0. -/
theorem default_limit_refuted :
    getTail (fsOne (List.replicate 1001 '\n')) none ⟨some "log", some ['0'], none⟩
      = Except.ok (1001, List.replicate 1001 ['\n'])
    ∧ 1000 < 1001 := by
  refine ⟨?_, by decide⟩
  have h1 : getTail (fsOne (List.replicate 1001 '\n')) none ⟨some "log", some ['0'], none⟩
      = tailCore (List.replicate 1001 '\n') 0 0 := rfl
  have h2 : tailCore (List.replicate 1001 '\n') 0 0
      = Except.ok (tail (List.replicate 1001 '\n') 0 none) := by
    rw [tailCore, if_neg (by rw [List.length_replicate]; omega),
      if_neg (by omega), if_neg (by omega)]
    rfl
  rw [h1, h2, tail_replicate_nl 1001]

/-- C9, amended: the server-side handler applies no default limit at all: an
absent (or zero) limit parameter is served unbounded at EVERY offset,
including offset 0.  The fixed default of 1000 at offset 0 lives in the
page's JavaScript client, which appends a limit parameter (defaulting to
1000) to the request URI only when its offset variable is 0. -/
theorem no_server_default_limit :
    (∀ content : List Char, ∀ off : Int, 0 ≤ off → off < (content.length : Int) →
      tailCore content off 0 = Except.ok (tail content off.toNat none))
    ∧ (∀ req : TailReq, req.limit = none → parseParam req.limit 0 = some 0)
    ∧ (∀ lp : Option Int, jsTailLimitParam 0 lp = some (lp.getD 1000))
    ∧ (∀ (off : Nat) (lp : Option Int), ¬ off = 0 → jsTailLimitParam off lp = none) := by
  refine ⟨?_, ?_, ?_, ?_⟩
  · intro content off h0 hlt
    rw [tailCore, if_neg (by omega), if_neg (by omega), if_neg (by omega)]
    simp
  · intro req h
    rw [h]
    rfl
  · intro lp
    simp [jsTailLimitParam]
  · intro off lp h
    simp [jsTailLimitParam, h]

/-- C9, witness: the handler part at offset 0 on "a\nb\nc\n" with limit 0
(the coercion of an absent limit), and the JavaScript part at offset 5. -/
theorem no_server_default_limit_witness :
    tailCore exComplete 0 0 = Except.ok (tail exComplete (Int.toNat 0) none)
    ∧ jsTailLimitParam 5 none = none :=
  ⟨no_server_default_limit.1 exComplete 0 (by decide) (by decide),
   no_server_default_limit.2.2.2 5 none (by decide)⟩

end Webtail
